import Mathlib

/-!
Shallow embedding of the YarnDB datastore core (`YAMLDatastore` in Go):
the in-memory record map, secondary indexes, the single staged transaction,
the merge cache, the dirty flag, concurrent load, and `Save`.
-/

namespace YarnDB

/-- A Go `interface{}` value as produced by YAML unmarshalling: the Go `nil`
interface (`nullV`), scalars, sequences, and string-keyed mappings
(`map[string]interface{}` / `map[interface{}]interface{}` looked up with a
string key). -/
inductive Value where
  | nullV : Value
  | str : String → Value
  | intV : Int → Value
  | boolV : Bool → Value
  | list : List Value → Value
  | smap : List (String × Value) → Value
deriving Repr

mutual

/-- Structural equality on values (Go `==` on comparable interface values,
extended structurally to sequences and mappings). -/
def Value.beq : Value → Value → Bool
  | .nullV, .nullV => true
  | .str a, .str b => a == b
  | .intV a, .intV b => a == b
  | .boolV a, .boolV b => a == b
  | .list a, .list b => Value.beqL a b
  | .smap a, .smap b => Value.beqM a b
  | _, _ => false
termination_by structural a => a

def Value.beqL : List Value → List Value → Bool
  | [], [] => true
  | a :: as, b :: bs => Value.beq a b && Value.beqL as bs
  | _, _ => false
termination_by structural a => a

def Value.beqM : List (String × Value) → List (String × Value) → Bool
  | [], [] => true
  | (k, a) :: as, (k2, b) :: bs =>
      k == k2 && (Value.beq a b && Value.beqM as bs)
  | _, _ => false
termination_by structural a => a

end

mutual

theorem Value.beq_refl : ∀ a : Value, Value.beq a a = true
  | .nullV => rfl
  | .str a => by simp [Value.beq]
  | .intV a => by simp [Value.beq]
  | .boolV a => by simp [Value.beq]
  | .list a => by simp [Value.beq, Value.beqL_refl a]
  | .smap a => by simp [Value.beq, Value.beqM_refl a]

theorem Value.beqL_refl : ∀ a : List Value, Value.beqL a a = true
  | [] => rfl
  | a :: as => by simp [Value.beqL, Value.beq_refl a, Value.beqL_refl as]

theorem Value.beqM_refl : ∀ a : List (String × Value), Value.beqM a a = true
  | [] => rfl
  | (k, a) :: as => by simp [Value.beqM, Value.beq_refl a, Value.beqM_refl as]

end

mutual

theorem Value.beq_sound : ∀ a b : Value, Value.beq a b = true → a = b
  | .nullV, .nullV, _ => rfl
  | .str a, .str b, h => by simpa [Value.beq] using h
  | .intV a, .intV b, h => by simpa [Value.beq] using h
  | .boolV a, .boolV b, h => by simpa [Value.beq] using h
  | .list a, .list b, h => by
      simp only [Value.beq] at h
      exact congrArg Value.list (Value.beqL_sound a b h)
  | .smap a, .smap b, h => by
      simp only [Value.beq] at h
      exact congrArg Value.smap (Value.beqM_sound a b h)
  | .nullV, .str _, h => by simp [Value.beq] at h
  | .nullV, .intV _, h => by simp [Value.beq] at h
  | .nullV, .boolV _, h => by simp [Value.beq] at h
  | .nullV, .list _, h => by simp [Value.beq] at h
  | .nullV, .smap _, h => by simp [Value.beq] at h
  | .str _, .nullV, h => by simp [Value.beq] at h
  | .str _, .intV _, h => by simp [Value.beq] at h
  | .str _, .boolV _, h => by simp [Value.beq] at h
  | .str _, .list _, h => by simp [Value.beq] at h
  | .str _, .smap _, h => by simp [Value.beq] at h
  | .intV _, .nullV, h => by simp [Value.beq] at h
  | .intV _, .str _, h => by simp [Value.beq] at h
  | .intV _, .boolV _, h => by simp [Value.beq] at h
  | .intV _, .list _, h => by simp [Value.beq] at h
  | .intV _, .smap _, h => by simp [Value.beq] at h
  | .boolV _, .nullV, h => by simp [Value.beq] at h
  | .boolV _, .str _, h => by simp [Value.beq] at h
  | .boolV _, .intV _, h => by simp [Value.beq] at h
  | .boolV _, .list _, h => by simp [Value.beq] at h
  | .boolV _, .smap _, h => by simp [Value.beq] at h
  | .list _, .nullV, h => by simp [Value.beq] at h
  | .list _, .str _, h => by simp [Value.beq] at h
  | .list _, .intV _, h => by simp [Value.beq] at h
  | .list _, .boolV _, h => by simp [Value.beq] at h
  | .list _, .smap _, h => by simp [Value.beq] at h
  | .smap _, .nullV, h => by simp [Value.beq] at h
  | .smap _, .str _, h => by simp [Value.beq] at h
  | .smap _, .intV _, h => by simp [Value.beq] at h
  | .smap _, .boolV _, h => by simp [Value.beq] at h
  | .smap _, .list _, h => by simp [Value.beq] at h

theorem Value.beqL_sound : ∀ a b : List Value, Value.beqL a b = true → a = b
  | [], [], _ => rfl
  | a :: as, b :: bs, h => by
      simp only [Value.beqL, Bool.and_eq_true] at h
      rw [Value.beq_sound a b h.1, Value.beqL_sound as bs h.2]
  | [], _ :: _, h => by simp [Value.beqL] at h
  | _ :: _, [], h => by simp [Value.beqL] at h

theorem Value.beqM_sound :
    ∀ a b : List (String × Value), Value.beqM a b = true → a = b
  | [], [], _ => rfl
  | (k, a) :: as, (l, b) :: bs, h => by
      simp only [Value.beqM, Bool.and_eq_true, beq_iff_eq] at h
      rw [h.1, Value.beq_sound a b h.2.1, Value.beqM_sound as bs h.2.2]
  | [], _ :: _, h => by simp [Value.beqM] at h
  | _ :: _, [], h => by simp [Value.beqM] at h

end

instance : DecidableEq Value := fun a b =>
  if h : Value.beq a b = true then
    isTrue (Value.beq_sound a b h)
  else
    isFalse (fun he => h (he ▸ Value.beq_refl a))

/-! ### Association lists modelling Go maps

A Go map is modelled as an association list with at most one binding per
key; map read is `lookupA`, map assignment (`m[k] = v`) is `insertA`,
`delete(m, k)` is `eraseA`. -/

/-- Go map read: `v, ok := m[k]`. -/
def lookupA {α β : Type} [DecidableEq α] : List (α × β) → α → Option β
  | [], _ => none
  | (k, v) :: rest, key => if k = key then some v else lookupA rest key

/-- Go `delete(m, k)` (removes every binding of `k`; lists built by
`insertA` hold at most one). -/
def eraseA {α β : Type} [DecidableEq α] : List (α × β) → α → List (α × β)
  | [], _ => []
  | (a, b) :: t, k => if a = k then eraseA t k else (a, b) :: eraseA t k

/-- Go map assignment `m[k] = v` (replaces any previous binding of `k`). -/
def insertA {α β : Type} [DecidableEq α] (l : List (α × β)) (k : α) (v : β) :
    List (α × β) :=
  (k, v) :: eraseA l k

/-- Adding a path to a Go `map[string]bool` used as a set. -/
def insertS (l : List String) (s : String) : List String :=
  if s ∈ l then l else s :: l

mutual

/-- Go `fmt.Sprintf("%v", v)` on an interface value (scalar cases exact;
`fmt` prints sequences space-separated in brackets and maps as
`map[k:v ...]`). -/
def sprintf : Value → String
  | .nullV => "<nil>"
  | .str s => s
  | .intV n => toString n
  | .boolV b => if b then "true" else "false"
  | .list xs => "[" ++ sprintfL xs ++ "]"
  | .smap m => "map[" ++ sprintfM m ++ "]"
termination_by structural v => v

def sprintfL : List Value → String
  | [] => ""
  | [x] => sprintf x
  | x :: xs => sprintf x ++ " " ++ sprintfL xs
termination_by structural l => l

def sprintfM : List (String × Value) → String
  | [] => ""
  | [(k, x)] => k ++ ":" ++ sprintf x
  | (k, x) :: xs => k ++ ":" ++ sprintf x ++ " " ++ sprintfM xs
termination_by structural l => l

end

/-- Go `strings.Split(s, sep)` for a one-character separator, written over
the character list (always returns at least one segment). -/
def splitOnChar (sep : Char) : List Char → List String
  | [] => [""]
  | c :: cs =>
      match splitOnChar sep cs with
      | [] => [String.mk [c]]
      | r :: rs =>
          if c = sep then "" :: r :: rs
          else String.mk (c :: r.data) :: rs

/-- The segment walk inside `getNestedValue`: descend into string-keyed
mappings one segment at a time; any other node (scalar, sequence, nil)
with segments left over makes the lookup fail. -/
def getNestedGo : Value → List String → Option Value
  | v, [] => some v
  | .smap m, k :: ks =>
      match lookupA m k with
      | some v => getNestedGo v ks
      | none => none
  | _, _ :: _ => none

/-- Function `getNestedValue` from `part_001`: retrieves a nested value by
dot-separated key; `strings.Split(key, ".")` always yields at least one
segment. -/
def getNestedValue (data : Value) (key : String) : Option Value :=
  getNestedGo data (splitOnChar (Char.ofNat 46) key.data)

/-! ### The datastore state

`YAMLDatastore` with its maps as association lists.  The merge cache
`cache["merged"]` is `Option`: `none` models an invalidated (empty) cache
map whose type assertion misses.  `txMuHeld` models whether `txMu` is
currently locked: `BeginTransaction` locks it and only `Commit`/`Rollback`
unlock it, so a second sequential `BeginTransaction` while it is held
blocks forever rather than returning. -/
structure DS where
  dir : String
  data : List (String × Value)
  files : List String
  indexes : List (String × List (Value × String))
  cache : Option (List (String × Value))
  dirty : Bool
  txMuHeld : Bool
  txActive : Bool
  txData : List (String × Value)
  txFiles : List String
deriving DecidableEq, Repr

/-- Go `filepath.Join(dir, name)`. -/
def joinPath (dir name : String) : String := dir ++ "/" ++ name

/-- Go `filepath.Join(ds.dir, "records_"+fileID+".yaml")`. -/
def recordFile (dir fileID : String) : String :=
  joinPath dir ("records_" ++ fileID ++ ".yaml")

/-- The fresh store built by `NewYAMLDatastore` over an empty directory,
before any load. -/
def DS.init (dir : String) : DS :=
  { dir := dir, data := [], files := [], indexes := [], cache := none,
    dirty := false, txMuHeld := false, txActive := false,
    txData := [], txFiles := [] }

/-- The stale-entry sweep shared by `updateIndexes` and `Delete`: the loop
`for val, id := range index` deleting every entry whose id is
`recordID`. -/
def eraseById : List (Value × String) → String → List (Value × String)
  | [], _ => []
  | p :: t, recordID =>
      if p.2 = recordID then eraseById t recordID
      else p :: eraseById t recordID

/-- Function `updateIndexes` restricted to one index: delete every entry whose id is
`recordID`, then bind the record's current value at `key` (if present) to
`recordID`. -/
def updateIndex (key : String) (idx : List (Value × String))
    (recordID : String) (data : Value) : List (Value × String) :=
  let idx' := eraseById idx recordID
  match getNestedValue data key with
  | some v => insertA idx' v recordID
  | none => idx'

/-- Function `updateIndexes` from `part_001`: applied to every registered index. -/
def updateIndexes (indexes : List (String × List (Value × String)))
    (recordID : String) (data : Value) :
    List (String × List (Value × String)) :=
  indexes.map (fun p => (p.1, updateIndex p.1 p.2 recordID data))

/-- Method `Set` from `part_001`.  With a transaction active it only stages into
`txData`/`txFiles`; otherwise it writes the record, registers the shard
file, marks dirty, invalidates the cache and maintains the indexes. -/
def DS.Set (ds : DS) (recordID : String) (data : Value) (fileID : String) :
    DS :=
  if ds.txActive then
    { ds with txData := insertA ds.txData recordID data,
              txFiles := insertS ds.txFiles (recordFile ds.dir fileID) }
  else
    { ds with data := insertA ds.data recordID data,
              files := insertS ds.files (recordFile ds.dir fileID),
              dirty := true,
              cache := none,
              indexes := updateIndexes ds.indexes recordID data }

/-- Method `Get` from `part_001`: returns `(interface{}, error)`; the error is nil
on every path, and a miss returns the nil interface. -/
def DS.Get (ds : DS) (recordID : String) : Value × Option String :=
  if ds.txActive then
    match lookupA ds.txData recordID with
    | some d => (d, none)
    | none =>
        match lookupA ds.data recordID with
        | some d => (d, none)
        | none => (.nullV, none)
  else
    match lookupA ds.data recordID with
    | some d => (d, none)
    | none => (.nullV, none)

/-- Method `Delete` from `part_001`.  With a transaction active it stages a
tombstone (`txData[recordID] = nil`) and succeeds; otherwise a missing id
is an error and a present id is removed from the data and from every
index. -/
def DS.Delete (ds : DS) (recordID : String) : DS × Option String :=
  if ds.txActive then
    ({ ds with txData := insertA ds.txData recordID .nullV }, none)
  else
    match lookupA ds.data recordID with
    | none => (ds, some "record not found")
    | some _ =>
        ({ ds with data := eraseA ds.data recordID,
                   dirty := true,
                   cache := none,
                   indexes := ds.indexes.map
                     (fun p => (p.1, eraseById p.2 recordID)) },
         none)

/-- Go `ds.txData[id] == nil`: true when the id is absent from the staged
map (zero value) or staged as an explicit nil tombstone. -/
def isGoNil : Option Value → Bool
  | none => true
  | some v => decide (v = Value.nullV)

/-- One iteration of the index arm of `Query`'s loop: an index entry
`(val, id)` whose rendered value matches is added to the result, with the
transaction-overlay substitutions exactly as written in the source. -/
def queryIndexStep (ds : DS) (value : String)
    (result : List (String × Value)) (p : Value × String) :
    List (String × Value) :=
  if sprintf p.1 = value then
    if ds.txActive && isGoNil (lookupA ds.txData p.2) then result
    else
      let data := (lookupA ds.data p.2).getD .nullV
      let data :=
        match lookupA ds.txData p.2 with
        | some txd =>
            if ds.txActive && !decide (txd = Value.nullV) then txd
            else data
        | none => data
      insertA result p.2 data
  else result

/-- One iteration of the scan arm of `Query`'s loop over the committed
records, with the transaction-overlay conditions exactly as written in the
source. -/
def queryScanStep (ds : DS) (key value : String)
    (result : List (String × Value)) (p : String × Value) :
    List (String × Value) :=
  if ds.txActive && isGoNil (lookupA ds.txData p.1) then result
  else
    let data :=
      match lookupA ds.txData p.1 with
      | some txd =>
          if ds.txActive && !decide (txd = Value.nullV) then txd
          else p.2
      | none => p.2
    match getNestedValue data key with
    | some val =>
        if sprintf val = value then insertA result p.1 data else result
    | none => result

/-- Method `Query` from `part_001`.  With an index on `key` it walks the index
entries, comparing `fmt.Sprintf("%v", val)` to `value`; otherwise it scans
every committed record, evaluating the field path. -/
def DS.Query (ds : DS) (key value : String) : List (String × Value) :=
  match lookupA ds.indexes key with
  | some index => index.foldl (queryIndexStep ds value) []
  | none => ds.data.foldl (queryScanStep ds key value) []

/-- One iteration of `CreateIndex`'s scan: a record whose value at `key`
is present is bound into the index (later records clobber earlier ones
holding the same value). -/
def createIndexStep (key : String) (idx : List (Value × String))
    (p : String × Value) : List (Value × String) :=
  match getNestedValue p.2 key with
  | some v => insertA idx v p.1
  | none => idx

/-- Method `CreateIndex` from `part_001`: errors if the index exists, otherwise
builds it by a full scan of the committed records. -/
def DS.CreateIndex (ds : DS) (key : String) : DS × Option String :=
  match lookupA ds.indexes key with
  | some _ => (ds, some "index already exists")
  | none =>
      let index := ds.data.foldl (createIndexStep key)
        ([] : List (Value × String))
      ({ ds with indexes := insertA ds.indexes key index }, none)

/-- Outcome of a sequential `BeginTransaction` call: `blocked` when
`txMu.Lock()` cannot be acquired because the previous transaction still
holds it, `conflict` for the `txActive` error return, `ok` on success. -/
inductive BeginResult where
  | blocked : BeginResult
  | conflict : BeginResult
  | ok : BeginResult
deriving DecidableEq, Repr

/-- Method `BeginTransaction` from `part_001`.  It acquires `txMu` (kept locked
until `Commit`/`Rollback`), then checks `txActive`; on success it installs
fresh empty `txData`/`txFiles` aliased to the handle's overlay. -/
def DS.BeginTransaction (ds : DS) : DS × BeginResult :=
  if ds.txMuHeld then (ds, .blocked)
  else if ds.txActive then (ds, .conflict)
  else
    ({ ds with txMuHeld := true, txActive := true,
               txData := [], txFiles := [] }, .ok)

/-- Method `Transaction.Set`: stages into the overlay only (`tx.data` aliases
`ds.txData`). -/
def DS.txSet (ds : DS) (recordID : String) (data : Value) (fileID : String) :
    DS :=
  { ds with txData := insertA ds.txData recordID data,
            txFiles := insertS ds.txFiles (recordFile ds.dir fileID) }

/-- Method `Transaction.Delete`: stages a nil tombstone in the overlay. -/
def DS.txDelete (ds : DS) (recordID : String) : DS :=
  { ds with txData := insertA ds.txData recordID .nullV }

/-- One staged entry applied by `Commit`: a nil tombstone deletes the
committed record (with no index maintenance); any other value upserts and
runs `updateIndexes`. -/
def commitEntry (ds : DS) (p : String × Value) : DS :=
  if p.2 = Value.nullV then { ds with data := eraseA ds.data p.1 }
  else
    { ds with data := insertA ds.data p.1 p.2,
              indexes := updateIndexes ds.indexes p.1 p.2 }

/-- Method `Transaction.Commit` from `part_001`: applies every staged entry,
merges the staged file set, marks dirty, invalidates the cache, clears
`txActive` and releases `txMu`. -/
def DS.Commit (ds : DS) : DS :=
  let ds' := ds.txData.foldl commitEntry ds
  { ds' with files := ds.txFiles.foldl insertS ds'.files,
             dirty := true,
             cache := none,
             txActive := false,
             txMuHeld := false }

/-- Method `Transaction.Rollback` from `part_001`: releases `txMu`, clears
`txActive` and resets the staged maps; the merge cache is left as-is. -/
def DS.Rollback (ds : DS) : DS :=
  { ds with txMuHeld := false, txActive := false,
            txData := [], txFiles := [] }

/-- The per-record branch of `Merge`'s loop over `ds.data`: skipped when a
transaction is active and `ds.txData[id] == nil`; replaced by the staged
value when one is staged non-nil. -/
def mergeEntry (ds : DS) (id : String) (data : Value) : Option Value :=
  if ds.txActive && isGoNil (lookupA ds.txData id) then none
  else
    match lookupA ds.txData id with
    | some txd =>
        if ds.txActive && !decide (txd = Value.nullV) then some txd
        else some data
    | none => some data

/-- The merge `Merge` computes when the cache misses. -/
def computeMerge (ds : DS) : List (String × Value) :=
  ds.data.foldl (fun merged p =>
    match mergeEntry ds p.1 p.2 with
    | some v => insertA merged p.1 v
    | none => merged) []

/-- Method `Merge` from `part_001`: served from `cache["merged"]` whenever that
entry is present — the `txActive` flag is not consulted before the cache
read — otherwise computed and stored into the cache. -/
def DS.Merge (ds : DS) : DS × List (String × Value) :=
  match ds.cache with
  | some cached => (ds, cached)
  | none =>
      let merged := computeMerge ds
      ({ ds with cache := some merged }, merged)

/-! ### Persister (`Save`, `part_009`) -/

/-- Result of a `Save` call.  `panicNilMap` models the Go runtime panic
`assignment to entry in nil map` raised when a record's target shard file
is not a key of the pre-allocated `fileData` map. -/
inductive SaveOutcome where
  | ok : SaveOutcome
  | ioError : String → SaveOutcome
  | panicNilMap : SaveOutcome
deriving DecidableEq, Repr

/-- The shard path `Save` derives for a record: `strings.Split(id, "_")[0]`
names the file; if that path is not a tracked file, fall back to the
default shard. -/
def shardPath (ds : DS) (id : String) : String :=
  let fileID := (splitOnChar (Char.ofNat 95) id.data).headI
  let p := recordFile ds.dir fileID
  if p ∈ ds.files then p else recordFile ds.dir "default"

/-- The grouping loop of `Save`: `fileData` starts with one empty group per
tracked file; each record is appended to its derived group.  `none` models
the nil-map panic when the derived path (after the default fallback) is
not among the pre-allocated groups. -/
def groupRecords (ds : DS) :
    Option (List (String × List (String × Value))) :=
  let init : List (String × List (String × Value)) :=
    ds.files.map (fun p => (p, []))
  ds.data.foldl (fun acc p =>
    match acc with
    | none => none
    | some groups =>
        let path := shardPath ds p.1
        match lookupA groups path with
        | some g => some (insertA groups path (insertA g p.1 p.2))
        | none => none) (some init)

/-- The write loop of `Save`: empty groups are skipped; each non-empty
group is written to its path (the `writeOk` oracle says whether
`os.WriteFile` succeeds); the first failure aborts the loop, keeping the
writes already performed.  Serialization (`yaml.Marshal`) of these values
never fails and is not modelled as a failure source.  Returns the list of
performed writes and the error, if any. -/
def writeShards (writeOk : String → Bool) :
    List (String × List (String × Value)) → List String × Option String
  | [] => ([], none)
  | (path, records) :: rest =>
      if records.isEmpty then writeShards writeOk rest
      else if writeOk path then
        let r := writeShards writeOk rest
        (path :: r.1, r.2)
      else ([], some path)

/-- Method `Save` from `part_009`: a no-op when not dirty; otherwise group, write
shard by shard, and clear the dirty flag only after every write succeeded.
Returns the final state, the shard paths written, and the outcome. -/
def DS.Save (ds : DS) (writeOk : String → Bool) :
    DS × List String × SaveOutcome :=
  if !ds.dirty then (ds, [], .ok)
  else
    match groupRecords ds with
    | none => (ds, [], .panicNilMap)
    | some groups =>
        let r := writeShards writeOk groups
        match r.2 with
        | some path => (ds, r.1, .ioError path)
        | none => ({ ds with dirty := false }, r.1, .ok)

/-! ### Loader (`ConcurrentRead`/`readFile`, `part_000`) -/

/-- A shard file as parsed by `readFile`: a path and its id→document
mapping. -/
structure ShardFile where
  path : String
  records : List (String × Value)
deriving DecidableEq, Repr

/-- The merge step of `readFile`, run under the store lock: every parsed
record is written into `data` and indexed. -/
def readFileMerge (ds : DS) (f : ShardFile) : DS :=
  f.records.foldl (fun s p =>
    { s with data := insertA s.data p.1 p.2,
             indexes := updateIndexes s.indexes p.1 p.2 }) ds

/-- Method `ConcurrentRead` from `part_000`: the directory walk registers every
discovered file path (in walk order), then one goroutine per file merges
that file's records under the lock.  The goroutines finish in an arbitrary
order, so the merge order is a schedule — any permutation of the
discovered files — not the walk order. -/
def ConcurrentRead (ds : DS) (walk : List ShardFile)
    (schedule : List ShardFile) : DS :=
  let ds' := { ds with
    files := (walk.map ShardFile.path).foldl insertS ds.files }
  schedule.foldl readFileMerge ds'

/-! ### Histories of committed mutations -/

/-- One store-level mutation. -/
inductive Op where
  | set : String → Value → String → Op
  | del : String → Op
deriving DecidableEq, Repr

/-- Apply one mutation (the `Delete` error, if any, is discarded). -/
def applyOp (ds : DS) : Op → DS
  | .set id d f => ds.Set id d f
  | .del id => (ds.Delete id).1

/-- Run a history of mutations left to right. -/
def runOps (ds : DS) (ops : List Op) : DS := ops.foldl applyOp ds

/-! ### Association-list lemmas -/

/-- Go maps bind each key at most once; association lists reached through
`insertA`/`eraseA` keep that shape. -/
def NodupKeys {α β : Type} (l : List (α × β)) : Prop :=
  (l.map Prod.fst).Nodup

instance {α β : Type} [DecidableEq α] (l : List (α × β)) :
    Decidable (NodupKeys l) :=
  inferInstanceAs (Decidable (l.map Prod.fst).Nodup)

theorem lookupA_insertA_self {α β : Type} [DecidableEq α]
    (l : List (α × β)) (k : α) (v : β) :
    lookupA (insertA l k v) k = some v := by
  simp [insertA, lookupA]

theorem lookupA_eraseA_ne {α β : Type} [DecidableEq α]
    (l : List (α × β)) (k k' : α) (h : k' ≠ k) :
    lookupA (eraseA l k) k' = lookupA l k' := by
  induction l with
  | nil => rfl
  | cons p t ih =>
      obtain ⟨a, b⟩ := p
      by_cases ha : a = k
      · rw [eraseA, if_pos ha, ih, lookupA,
          if_neg (fun hc : a = k' => h (hc ▸ ha ▸ rfl))]
      · by_cases hk : a = k'
        · rw [eraseA, if_neg ha, lookupA, if_pos hk, lookupA, if_pos hk]
        · rw [eraseA, if_neg ha, lookupA, if_neg hk, ih, lookupA, if_neg hk]

theorem lookupA_eraseA_self {α β : Type} [DecidableEq α]
    (l : List (α × β)) (k : α) :
    lookupA (eraseA l k) k = none := by
  induction l with
  | nil => rfl
  | cons p t ih =>
      obtain ⟨a, b⟩ := p
      by_cases ha : a = k
      · rw [eraseA, if_pos ha, ih]
      · rw [eraseA, if_neg ha, lookupA, if_neg ha, ih]

theorem lookupA_insertA_ne {α β : Type} [DecidableEq α]
    (l : List (α × β)) (k k' : α) (v : β) (h : k' ≠ k) :
    lookupA (insertA l k v) k' = lookupA l k' := by
  rw [insertA, lookupA, if_neg (fun hc : k = k' => h (hc ▸ rfl))]
  exact lookupA_eraseA_ne l k k' h

theorem mem_of_lookupA {α β : Type} [DecidableEq α]
    {l : List (α × β)} {k : α} {v : β} (h : lookupA l k = some v) :
    (k, v) ∈ l := by
  induction l with
  | nil => simp [lookupA] at h
  | cons p t ih =>
      obtain ⟨a, b⟩ := p
      by_cases ha : a = k
      · rw [lookupA, if_pos ha] at h
        injection h with h
        rw [← ha, ← h]
        exact List.mem_cons_self _ _
      · rw [lookupA, if_neg ha] at h
        exact List.mem_cons_of_mem _ (ih h)

theorem lookupA_of_mem {α β : Type} [DecidableEq α]
    {l : List (α × β)} {k : α} {v : β}
    (hnd : NodupKeys l) (h : (k, v) ∈ l) :
    lookupA l k = some v := by
  induction l with
  | nil => simp at h
  | cons p t ih =>
      obtain ⟨a, b⟩ := p
      simp only [NodupKeys, List.map_cons, List.nodup_cons] at hnd
      rcases List.mem_cons.1 h with h1 | h1
      · rw [lookupA, if_pos (congrArg Prod.fst h1).symm]
        exact congrArg (some ∘ Prod.snd) h1.symm
      · have hak : a ≠ k := by
          intro hc
          exact hnd.1 (hc ▸ (List.mem_map.2 ⟨(k, v), h1, rfl⟩))
        rw [lookupA, if_neg hak]
        exact ih hnd.2 h1

theorem mem_eraseA {α β : Type} [DecidableEq α]
    {l : List (α × β)} {k : α} {p : α × β} (h : p ∈ eraseA l k) :
    p ∈ l ∧ p.1 ≠ k := by
  induction l with
  | nil => simp [eraseA] at h
  | cons q t ih =>
      obtain ⟨a, b⟩ := q
      by_cases ha : a = k
      · rw [eraseA, if_pos ha] at h
        exact ⟨List.mem_cons_of_mem _ (ih h).1, (ih h).2⟩
      · rw [eraseA, if_neg ha] at h
        rcases List.mem_cons.1 h with h1 | h1
        · exact ⟨List.mem_cons.2 (Or.inl h1), by
            rw [h1]; exact ha⟩
        · exact ⟨List.mem_cons_of_mem _ (ih h1).1, (ih h1).2⟩

theorem eraseA_sublist {α β : Type} [DecidableEq α]
    (l : List (α × β)) (k : α) : (eraseA l k).Sublist l := by
  induction l with
  | nil => exact List.Sublist.refl _
  | cons q t ih =>
      obtain ⟨a, b⟩ := q
      by_cases ha : a = k
      · rw [eraseA, if_pos ha]
        exact ih.cons _
      · rw [eraseA, if_neg ha]
        exact ih.cons₂ _

theorem mem_insertA {α β : Type} [DecidableEq α]
    {l : List (α × β)} {k : α} {v : β} {p : α × β}
    (h : p ∈ insertA l k v) : p = (k, v) ∨ p ∈ l := by
  rcases List.mem_cons.1 h with h1 | h1
  · exact Or.inl h1
  · exact Or.inr (mem_eraseA h1).1

theorem nodupKeys_nil {α β : Type} : NodupKeys ([] : List (α × β)) :=
  List.nodup_nil

theorem nodupKeys_eraseA {α β : Type} [DecidableEq α]
    {l : List (α × β)} (h : NodupKeys l) (k : α) :
    NodupKeys (eraseA l k) :=
  ((eraseA_sublist l k).map Prod.fst).nodup h

theorem nodupKeys_insertA {α β : Type} [DecidableEq α]
    {l : List (α × β)} (h : NodupKeys l) (k : α) (v : β) :
    NodupKeys (insertA l k v) := by
  refine List.nodup_cons.2 ⟨?_, nodupKeys_eraseA h k⟩
  intro hc
  rcases List.mem_map.1 hc with ⟨p, hp, hpk⟩
  exact (mem_eraseA hp).2 hpk

theorem lookupA_map_snd {α β γ : Type} [DecidableEq α]
    (l : List (α × β)) (f : α → β → γ) (k : α) :
    lookupA (l.map (fun p => (p.1, f p.1 p.2))) k =
      (lookupA l k).map (f k) := by
  induction l with
  | nil => rfl
  | cons p t ih =>
      obtain ⟨a, b⟩ := p
      by_cases ha : a = k
      · subst ha; simp [lookupA]
      · simp [lookupA, ha, ih]

theorem mem_eraseById {l : List (Value × String)} {id : String}
    {p : Value × String} (h : p ∈ eraseById l id) :
    p ∈ l ∧ p.2 ≠ id := by
  induction l with
  | nil => simp [eraseById] at h
  | cons q t ih =>
      by_cases hq : q.2 = id
      · rw [eraseById, if_pos hq] at h
        exact ⟨List.mem_cons_of_mem _ (ih h).1, (ih h).2⟩
      · rw [eraseById, if_neg hq] at h
        rcases List.mem_cons.1 h with h1 | h1
        · exact ⟨List.mem_cons.2 (Or.inl h1), by rw [h1]; exact hq⟩
        · exact ⟨List.mem_cons_of_mem _ (ih h1).1, (ih h1).2⟩

/-! ### Query steps outside a transaction -/

theorem queryScanStep_noTx (ds : DS) (key value : String)
    (htx : ds.txActive = false) (acc : List (String × Value))
    (p : String × Value) :
    queryScanStep ds key value acc p =
      match getNestedValue p.2 key with
      | some val =>
          if sprintf val = value then insertA acc p.1 p.2 else acc
      | none => acc := by
  rw [queryScanStep, htx]
  cases lookupA ds.txData p.1 <;> simp

theorem queryIndexStep_noTx (ds : DS) (value : String)
    (htx : ds.txActive = false) (acc : List (String × Value))
    (p : Value × String) :
    queryIndexStep ds value acc p =
      if sprintf p.1 = value then
        insertA acc p.2 ((lookupA ds.data p.2).getD .nullV)
      else acc := by
  rw [queryIndexStep, htx]
  cases lookupA ds.txData p.2 <;> simp

theorem queryIndexFold_lookup (ds : DS) (value : String)
    (htx : ds.txActive = false) :
    ∀ (index : List (Value × String)) (acc : List (String × Value))
      (id : String) (d : Value),
      lookupA (index.foldl (queryIndexStep ds value) acc) id = some d →
      lookupA acc id = some d ∨
        ∃ v, (v, id) ∈ index ∧ sprintf v = value ∧
          d = (lookupA ds.data id).getD .nullV := by
  intro index
  induction index with
  | nil => exact fun acc id d h => Or.inl h
  | cons p rest ih =>
      intro acc id d h
      rw [List.foldl_cons] at h
      rcases ih _ id d h with h1 | h1
      · rw [queryIndexStep_noTx ds value htx] at h1
        by_cases hs : sprintf p.1 = value
        · rw [if_pos hs] at h1
          by_cases hid : p.2 = id
          · subst hid
            rw [lookupA_insertA_self] at h1
            injection h1 with h1
            exact Or.inr ⟨p.1, List.mem_cons_self _ _, hs, h1.symm⟩
          · rw [lookupA_insertA_ne _ _ _ _ (fun hc => hid hc.symm)] at h1
            exact Or.inl h1
        · rw [if_neg hs] at h1
          exact Or.inl h1
      · obtain ⟨v, hv, hs, hd⟩ := h1
        exact Or.inr ⟨v, List.mem_cons_of_mem _ hv, hs, hd⟩

theorem queryScanFold_skip (ds : DS) (key value : String)
    (htx : ds.txActive = false) :
    ∀ (l acc : List (String × Value)) (id : String),
      id ∉ l.map Prod.fst →
      lookupA (l.foldl (queryScanStep ds key value) acc) id =
        lookupA acc id := by
  intro l
  induction l with
  | nil => exact fun acc id _ => rfl
  | cons p t ih =>
      intro acc id h
      have h1 : id ≠ p.1 := fun hc => h (hc ▸ List.mem_map.2 ⟨p, List.mem_cons_self _ _, rfl⟩)
      have h2 : id ∉ t.map Prod.fst := by
        intro hc
        rcases List.mem_map.1 hc with ⟨q, hq, hqe⟩
        exact h (List.mem_map.2 ⟨q, List.mem_cons_of_mem _ hq, hqe⟩)
      rw [List.foldl_cons, ih _ id h2, queryScanStep_noTx ds key value htx]
      cases hg : getNestedValue p.2 key with
      | none => rfl
      | some val =>
          simp only
          by_cases hs : sprintf val = value
          · rw [if_pos hs, lookupA_insertA_ne _ _ _ _ h1]
          · rw [if_neg hs]

theorem queryScanFold_found (ds : DS) (key value : String)
    (htx : ds.txActive = false) :
    ∀ (l acc : List (String × Value)) (id : String) (d0 v : Value),
      NodupKeys l → (id, d0) ∈ l →
      getNestedValue d0 key = some v → sprintf v = value →
      lookupA (l.foldl (queryScanStep ds key value) acc) id = some d0 := by
  intro l
  induction l with
  | nil => intro acc id d0 v _ h _ _; simp at h
  | cons p t ih =>
      intro acc id d0 v hnd hmem hg hs
      rw [NodupKeys, List.map_cons, List.nodup_cons] at hnd
      have hnd2 : NodupKeys t := hnd.2
      rw [List.foldl_cons]
      rcases List.mem_cons.1 hmem with h1 | h1
      · have hid : p.1 = id := (congrArg Prod.fst h1).symm
        have hd0 : p.2 = d0 := (congrArg Prod.snd h1).symm
        have hnotin : id ∉ t.map Prod.fst := by
          rw [← hid]; exact hnd.1
        rw [queryScanFold_skip ds key value htx t _ id hnotin,
          queryScanStep_noTx ds key value htx]
        rw [hd0, hg]
        simp only
        rw [if_pos hs, hid, lookupA_insertA_self]
      · have hmemt : id ∈ t.map Prod.fst :=
          List.mem_map.2 ⟨(id, d0), h1, rfl⟩
        exact ih _ id d0 v hnd2 h1 hg hs

theorem queryScanFold_nomatch (ds : DS) (key value : String)
    (htx : ds.txActive = false) :
    ∀ (l acc : List (String × Value)) (id : String),
      (∀ d0, (id, d0) ∈ l → getNestedValue d0 key = none) →
      lookupA (l.foldl (queryScanStep ds key value) acc) id =
        lookupA acc id := by
  intro l
  induction l with
  | nil => exact fun acc id _ => rfl
  | cons p t ih =>
      intro acc id h
      have h2 : ∀ d0, (id, d0) ∈ t → getNestedValue d0 key = none :=
        fun d0 hm => h d0 (List.mem_cons_of_mem _ hm)
      rw [List.foldl_cons, ih _ id h2, queryScanStep_noTx ds key value htx]
      by_cases hid : p.1 = id
      · have hp : (id, p.2) ∈ p :: t := by
          rw [← hid]
          exact List.mem_cons_self _ _
        rw [h p.2 hp]
      · cases hg : getNestedValue p.2 key with
        | none => rfl
        | some val =>
            simp only
            by_cases hs : sprintf val = value
            · rw [if_pos hs, lookupA_insertA_ne _ _ _ _ (fun hc => hid hc.symm)]
            · rw [if_neg hs]

/-! ### Index consistency along committed histories -/

/-- Every entry of an index points at a live committed record whose value
at the indexed path is exactly the entry's key. -/
def IndexInv (key : String) (dta : List (String × Value))
    (idx : List (Value × String)) : Prop :=
  ∀ p ∈ idx, ∃ d, lookupA dta p.2 = some d ∧ getNestedValue d key = some p.1

/-- Invariant carried along a committed (no-transaction) history: no
transaction is open, committed ids are unique, and the index registered at
`key`, if any, is consistent with the committed records. -/
def StInv (key : String) (ds : DS) : Prop :=
  ds.txActive = false ∧ NodupKeys ds.data ∧
    ∀ idx, lookupA ds.indexes key = some idx → IndexInv key ds.data idx

theorem lookupA_updateIndexes (indexes : List (String × List (Value × String)))
    (id0 : String) (d0 : Value) (key : String) :
    lookupA (updateIndexes indexes id0 d0) key =
      (lookupA indexes key).map (fun idx => updateIndex key idx id0 d0) :=
  lookupA_map_snd indexes (fun k idx => updateIndex k idx id0 d0) key

theorem stInv_set (key : String) {ds : DS} (h : StInv key ds)
    (id0 : String) (d0 : Value) (f0 : String) :
    StInv key (ds.Set id0 d0 f0) := by
  obtain ⟨htx, hnd, hidx⟩ := h
  rw [DS.Set, htx]
  simp only [Bool.false_eq_true, if_false]
  refine ⟨rfl, nodupKeys_insertA hnd _ _, ?_⟩
  intro idx hlk
  rw [lookupA_updateIndexes] at hlk
  rcases Option.map_eq_some'.1 hlk with ⟨idx0, hlk0, hup⟩
  subst hup
  rw [updateIndex]
  cases hg : getNestedValue d0 key with
  | some v0 =>
      intro p hp
      rcases mem_insertA hp with h1 | h1
      · subst h1
        exact ⟨d0, lookupA_insertA_self _ _ _, hg⟩
      · obtain ⟨hpi, hpne⟩ := mem_eraseById h1
        obtain ⟨d, hld, hgd⟩ := hidx idx0 hlk0 p hpi
        exact ⟨d, by rw [lookupA_insertA_ne _ _ _ _ hpne]; exact hld, hgd⟩
  | none =>
      intro p hp
      obtain ⟨hpi, hpne⟩ := mem_eraseById hp
      obtain ⟨d, hld, hgd⟩ := hidx idx0 hlk0 p hpi
      exact ⟨d, by rw [lookupA_insertA_ne _ _ _ _ hpne]; exact hld, hgd⟩

theorem stInv_delete (key : String) {ds : DS} (h : StInv key ds)
    (id0 : String) : StInv key (ds.Delete id0).1 := by
  obtain ⟨htx, hnd, hidx⟩ := h
  rw [DS.Delete, htx]
  simp only [Bool.false_eq_true, if_false]
  cases hl : lookupA ds.data id0 with
  | none => exact ⟨htx, hnd, hidx⟩
  | some d1 =>
      dsimp only
      refine ⟨rfl, nodupKeys_eraseA hnd _, ?_⟩
      intro idx hlk
      have hmap : lookupA (ds.indexes.map (fun p => (p.1, eraseById p.2 id0)))
          key = (lookupA ds.indexes key).map (fun idx => eraseById idx id0) :=
        lookupA_map_snd ds.indexes (fun _ idx => eraseById idx id0) key
      rw [hmap] at hlk
      rcases Option.map_eq_some'.1 hlk with ⟨idx0, hlk0, hup⟩
      subst hup
      intro p hp
      obtain ⟨hpi, hpne⟩ := mem_eraseById hp
      obtain ⟨d, hld, hgd⟩ := hidx idx0 hlk0 p hpi
      exact ⟨d, by rw [lookupA_eraseA_ne _ _ _ hpne]; exact hld, hgd⟩

theorem stInv_applyOp (key : String) {ds : DS} (h : StInv key ds) :
    ∀ op, StInv key (applyOp ds op)
  | .set id d f => stInv_set key h id d f
  | .del id => stInv_delete key h id

theorem stInv_runOps (key : String) {ds : DS} (h : StInv key ds) :
    ∀ ops, StInv key (runOps ds ops) := by
  intro ops
  induction ops generalizing ds with
  | nil => exact h
  | cons op rest ih => exact ih (stInv_applyOp key h op)

theorem createIndexFold_mem (key : String) :
    ∀ (l : List (String × Value)) (acc : List (Value × String))
      (p : Value × String),
      p ∈ l.foldl (createIndexStep key) acc →
      p ∈ acc ∨ ∃ d, (p.2, d) ∈ l ∧ getNestedValue d key = some p.1 := by
  intro l
  induction l with
  | nil => exact fun acc p h => Or.inl h
  | cons q t ih =>
      intro acc p h
      rw [List.foldl_cons] at h
      rcases ih _ p h with h1 | h1
      · rw [createIndexStep] at h1
        cases hg : getNestedValue q.2 key with
        | none =>
            rw [hg] at h1
            exact Or.inl h1
        | some v =>
            rw [hg] at h1
            rcases mem_insertA h1 with h2 | h2
            · subst h2
              exact Or.inr ⟨q.2, List.mem_cons_self _ _, hg⟩
            · exact Or.inl h2
      · obtain ⟨d, hd1, hd2⟩ := h1
        exact Or.inr ⟨d, List.mem_cons_of_mem _ hd1, hd2⟩

theorem stInv_createIndex (key : String) {ds : DS}
    (htx : ds.txActive = false) (hnd : NodupKeys ds.data)
    (hnil : ds.indexes = []) :
    StInv key (ds.CreateIndex key).1 ∧
      ∃ idx, lookupA (ds.CreateIndex key).1.indexes key = some idx := by
  have hnone : lookupA ds.indexes key = none := by rw [hnil]; rfl
  rw [DS.CreateIndex, hnone]
  dsimp only
  constructor
  · refine ⟨htx, hnd, ?_⟩
    intro idx hlk
    rw [lookupA_insertA_self] at hlk
    injection hlk with hlk
    subst hlk
    intro p hp
    rcases createIndexFold_mem key ds.data [] p hp with h1 | h1
    · simp at h1
    · obtain ⟨d, hdm, hdg⟩ := h1
      exact ⟨d, lookupA_of_mem hnd hdm, hdg⟩
  · exact ⟨_, lookupA_insertA_self _ _ _⟩

theorem createIndex_data (ds : DS) (key : String) :
    (ds.CreateIndex key).1.data = ds.data ∧
      (ds.CreateIndex key).1.txActive = ds.txActive := by
  rw [DS.CreateIndex]
  cases lookupA ds.indexes key <;> exact ⟨rfl, rfl⟩

theorem applyOp_parallel {ds1 ds2 : DS} (hd : ds1.data = ds2.data)
    (h1 : ds1.txActive = false) (h2 : ds2.txActive = false) :
    ∀ op, (applyOp ds1 op).data = (applyOp ds2 op).data ∧
      (applyOp ds1 op).txActive = false ∧
      (applyOp ds2 op).txActive = false := by
  intro op
  cases op with
  | set id d f =>
      simp only [applyOp, DS.Set, h1, h2, Bool.false_eq_true, if_false]
      exact ⟨by rw [hd], trivial, trivial⟩
  | del id =>
      simp only [applyOp, DS.Delete, h1, h2, Bool.false_eq_true, if_false]
      rw [hd]
      cases lookupA ds2.data id <;> dsimp only
      · exact ⟨hd, h1, h2⟩
      · exact ⟨rfl, rfl, rfl⟩

theorem runOps_parallel {ds1 ds2 : DS} (hd : ds1.data = ds2.data)
    (h1 : ds1.txActive = false) (h2 : ds2.txActive = false) :
    ∀ ops, (runOps ds1 ops).data = (runOps ds2 ops).data := by
  intro ops
  induction ops generalizing ds1 ds2 with
  | nil => exact hd
  | cons op rest ih =>
      obtain ⟨hd', h1', h2'⟩ := applyOp_parallel hd h1 h2 op
      exact ih hd' h1' h2'

theorem applyOp_indexes_nil {ds : DS} (h : ds.indexes = [])
    (htx : ds.txActive = false) (op : Op) :
    (applyOp ds op).indexes = [] ∧ (applyOp ds op).txActive = false := by
  cases op with
  | set id d f =>
      simp only [applyOp, DS.Set, htx, Bool.false_eq_true, if_false]
      exact ⟨by rw [updateIndexes, h]; rfl, trivial⟩
  | del id =>
      simp only [applyOp, DS.Delete, htx, Bool.false_eq_true, if_false]
      cases lookupA ds.data id <;> dsimp only
      · exact ⟨h, htx⟩
      · exact ⟨by rw [h]; rfl, rfl⟩

theorem runOps_indexes_nil {ds : DS} (h : ds.indexes = [])
    (htx : ds.txActive = false) :
    ∀ ops, (runOps ds ops).indexes = [] ∧
      (runOps ds ops).txActive = false := by
  intro ops
  induction ops generalizing ds with
  | nil => exact ⟨h, htx⟩
  | cons op rest ih =>
      obtain ⟨h', htx'⟩ := applyOp_indexes_nil h htx op
      exact ih h' htx'

theorem applyOp_index_present {ds : DS} (key : String)
    (h : ∃ idx, lookupA ds.indexes key = some idx)
    (htx : ds.txActive = false) (op : Op) :
    (∃ idx, lookupA (applyOp ds op).indexes key = some idx) ∧
      (applyOp ds op).txActive = false := by
  obtain ⟨idx, hidx⟩ := h
  cases op with
  | set id d f =>
      simp only [applyOp, DS.Set, htx, Bool.false_eq_true, if_false]
      refine ⟨⟨updateIndex key idx id d, ?_⟩, trivial⟩
      rw [lookupA_updateIndexes, hidx]
      rfl
  | del id =>
      simp only [applyOp, DS.Delete, htx, Bool.false_eq_true, if_false]
      cases lookupA ds.data id <;> dsimp only
      · exact ⟨⟨idx, hidx⟩, htx⟩
      · refine ⟨⟨eraseById idx id, ?_⟩, rfl⟩
        have hmap := lookupA_map_snd ds.indexes (fun _ x => eraseById x id) key
        rw [hmap, hidx]
        rfl

theorem runOps_index_present {ds : DS} (key : String)
    (h : ∃ idx, lookupA ds.indexes key = some idx)
    (htx : ds.txActive = false) :
    ∀ ops, ∃ idx, lookupA (runOps ds ops).indexes key = some idx := by
  intro ops
  induction ops generalizing ds with
  | nil => exact h
  | cons op rest ih =>
      obtain ⟨h', htx'⟩ := applyOp_index_present key h htx op
      exact ih h' htx'

/-! ### Statement helpers -/

/-- Whether a value is a string-keyed mapping (the only node kind
`getNestedValue` descends into). -/
def Value.isSmap : Value → Bool
  | .smap _ => true
  | _ => false

/-- A one-field document `{dept: s}` used in concrete scenarios. -/
def deptDoc (s : String) : Value := .smap [("dept", .str s)]

/-- The two-record duplicate-value history of the `Query` scenario. -/
def dupHistory : List Op :=
  [.set "u1" (deptDoc "eng") "u1", .set "u2" (deptDoc "eng") "u2"]

/-- Concrete state: `Set u1 {dept:eng}`, `CreateIndex dept`, then a
transaction stages a tombstone for `u1` and commits. -/
def commitTombstoneState : DS :=
  (((((DS.init "data").Set "u1" (deptDoc "eng")
    "u1").CreateIndex "dept").1.BeginTransaction).1.txDelete "u1").Commit

/-- Concrete state: `Set a 1`, `Merge` (cache now holds `a1`), begin a
transaction, stage `a 2`. -/
def staleCacheState : DS :=
  ((((DS.init "data").Set "a" (Value.intV 1)
    "a").Merge).1.BeginTransaction).1.txSet "a" (Value.intV 2) "a"

/-- Concrete state: committed record `a 1`, open transaction with staged
`b 7`. -/
def overlayState : DS :=
  (((DS.init "data").Set "a" (Value.intV 1)
    "a").BeginTransaction).1.txSet "b" (Value.intV 7) "b"

/-! ### The claims -/

/-- C1, counterexample: after `Set u1 {dept:eng}` and `Set u2 {dept:eng}`,
`Query dept eng` through the index drops `u1` (the index keeps a single id
per value, so `u2` clobbered `u1`), while the same query without an index
returns `u1`: the two result sets differ on the same data, refuting the
claim that they always coincide. -/
theorem C1_index_drops_duplicate :
    lookupA ((runOps ((DS.init "data").CreateIndex "dept").1
        dupHistory).Query "dept" "eng") "u1" = none ∧
      lookupA ((runOps (DS.init "data") dupHistory).Query "dept" "eng")
        "u1" = some (deptDoc "eng") := by
  exact ⟨rfl, rfl⟩

/-- C1 (amended): for every committed `Set`/`Delete` history, the indexed
`Query` result is contained in the index-free result: any id→document pair
the indexed path returns, the full scan returns identically.  (Equality
can fail, as the counterexample shows, when several records have held the
same value at the indexed path.) -/
theorem C1_query_index_subset_scan (dir : String) (pre post : List Op)
    (key value id : String) (d : Value)
    (h : lookupA ((runOps ((runOps (DS.init dir) pre).CreateIndex key).1
        post).Query key value) id = some d) :
    lookupA ((runOps (runOps (DS.init dir) pre) post).Query key value) id
      = some d := by
  have hinit : StInv key (DS.init dir) := by
    refine ⟨rfl, List.nodup_nil, ?_⟩
    intro idx hidx
    simp [DS.init, lookupA] at hidx
  have hbInv : StInv key (runOps (DS.init dir) pre) :=
    stInv_runOps key hinit pre
  have hbnil : (runOps (DS.init dir) pre).indexes = [] :=
    (runOps_indexes_nil rfl rfl pre).1
  have hC := stInv_createIndex key hbInv.1 hbInv.2.1 hbnil
  have hCdata := createIndex_data (runOps (DS.init dir) pre) key
  have hIInv : StInv key
      (runOps ((runOps (DS.init dir) pre).CreateIndex key).1 post) :=
    stInv_runOps key hC.1 post
  have hIpres := runOps_index_present key hC.2 hC.1.1 post
  have hNfacts := runOps_indexes_nil hbnil hbInv.1 post
  have hdata : (runOps ((runOps (DS.init dir) pre).CreateIndex key).1
        post).data = (runOps (runOps (DS.init dir) pre) post).data :=
    runOps_parallel hCdata.1 hC.1.1 hbInv.1 post
  obtain ⟨idx, hidx⟩ := hIpres
  rw [DS.Query, hidx] at h
  rcases queryIndexFold_lookup _ value hIInv.1 idx [] id d h with h1 | h1
  · simp [lookupA] at h1
  · obtain ⟨v, hv, hs, hd⟩ := h1
    obtain ⟨d0, hld0, hg0⟩ := hIInv.2.2 idx hidx (v, id) hv
    have hdd : d = d0 := by rw [hd, hld0]; rfl
    have hnone : lookupA (runOps (runOps (DS.init dir) pre) post).indexes
        key = none := by rw [hNfacts.1]; rfl
    rw [DS.Query, hnone]
    dsimp only
    have hld0n : lookupA (runOps (runOps (DS.init dir) pre) post).data id
        = some d0 := by rw [← hdata]; exact hld0
    have hndN : NodupKeys (runOps (runOps (DS.init dir) pre) post).data := by
      rw [← hdata]; exact hIInv.2.1
    rw [hdd]
    exact queryScanFold_found _ key value hNfacts.2 _ [] id d0 v hndN
      (mem_of_lookupA hld0n) hg0 hs

/-- C1 witness: the amended subset theorem applied to the duplicate-value
scenario, where the indexed query does return `u2`. -/
theorem C1_query_index_subset_scan_witness :
    lookupA ((runOps (runOps (DS.init "data") []) dupHistory).Query
        "dept" "eng") "u2" = some (deptDoc "eng") :=
  C1_query_index_subset_scan "data" [] dupHistory "dept" "eng" "u2"
    (deptDoc "eng") (by decide)

/-- C2: committing a transaction tombstone for `u1` removes the committed
record but performs no index maintenance, leaving the registered index on
`dept` with the dangling entry `eng ↦ u1` — contradicting the claim that
`Commit` removes deleted ids from every index. -/
theorem C2_commit_leaves_dangling_index :
    lookupA commitTombstoneState.data "u1" = none ∧
      lookupA commitTombstoneState.indexes "dept"
        = some [(Value.str "eng", "u1")] := by
  exact ⟨rfl, rfl⟩

/-- C3: with the cache populated before the transaction, a `Merge` issued
while the transaction is open and after it staged `a ↦ 2` is served from
the stale cache (`a ↦ 1`), even though a fresh merge of the same state
yields `a ↦ 2` — refuting the claim that merges during an open transaction
are never served from the cache. -/
theorem C3_merge_served_stale_cache :
    staleCacheState.txActive = true ∧
      staleCacheState.Merge.2 = [("a", Value.intV 1)] ∧
      computeMerge staleCacheState = [("a", Value.intV 2)] := by
  exact ⟨rfl, rfl, rfl⟩

/-- C4: a second sequential `BeginTransaction` while one is open blocks
forever on `txMu` instead of returning the Conflict error (which sits
behind the lock acquisition and is unreachable sequentially); after a
`Rollback` or a `Commit` the next `BeginTransaction` succeeds with an
empty overlay. -/
theorem C4_begin_blocks_not_conflict :
    (((DS.init "data").BeginTransaction).1.BeginTransaction).2
        = BeginResult.blocked ∧
    ((((DS.init "data").BeginTransaction).1.Rollback).BeginTransaction).2
        = BeginResult.ok ∧
    ((((DS.init "data").BeginTransaction).1.Rollback).BeginTransaction).1.txData
        = [] ∧
    ((((DS.init "data").BeginTransaction).1.Commit).BeginTransaction).2
        = BeginResult.ok ∧
    ((((DS.init "data").BeginTransaction).1.Commit).BeginTransaction).1.txData
        = [] := by
  exact ⟨rfl, rfl, rfl, rfl, rfl⟩

/-- C5, counterexample: in the reachable state right after
`BeginTransaction`, the id `x` exists nowhere, yet `Delete x` returns no
error (it silently stages a tombstone) — refuting `NotFound` in *every*
reachable state. -/
theorem C5_delete_missing_in_tx_succeeds :
    lookupA (((DS.init "data").BeginTransaction).1).data "x" = none ∧
      lookupA (((DS.init "data").BeginTransaction).1).txData "x" = none ∧
      ((((DS.init "data").BeginTransaction).1).Delete "x").2 = none := by
  exact ⟨rfl, rfl, rfl⟩

/-- C5 (amended): in every state with no open transaction, `Delete` of an
id absent from the committed records returns the NotFound error and
returns the store completely unchanged. -/
theorem C5_delete_missing_notfound (ds : DS) (id : String)
    (htx : ds.txActive = false) (habs : lookupA ds.data id = none) :
    ds.Delete id = (ds, some "record not found") := by
  rw [DS.Delete, htx]
  simp only [Bool.false_eq_true, if_false, habs]

/-- C5 witness: the amended theorem applied to the fresh store. -/
theorem C5_delete_missing_notfound_witness :
    (DS.init "data").Delete "x" = (DS.init "data", some "record not found") :=
  C5_delete_missing_notfound (DS.init "data") "x" rfl rfl

/-- C6: a store holding one dirty record `a` set with shard hint `b`
tracks only `records_b.yaml`; `Save` derives the shard from the id prefix
(`records_a.yaml`), falls back to the default shard, finds neither among
the pre-allocated groups and panics on a nil-map assignment — performing
zero writes and never reaching the write/dirty-flag discipline the claim
describes. -/
theorem C6_save_panics_on_unregistered_shard :
    ((DS.init "data").Set "a" (Value.intV 1) "b").dirty = true ∧
      ((DS.init "data").Set "a" (Value.intV 1) "b").Save (fun _ => true)
        = ((DS.init "data").Set "a" (Value.intV 1) "b", [],
            SaveOutcome.panicNilMap) := by
  exact ⟨rfl, rfl⟩

/-- C7, counterexample: a record stored with a nil document is
indistinguishable from an absent id — `Get` returns the same `(nil, nil)`
for the present id `a` and the absent id `zzz` — refuting the claim that
the not-found signal is distinct from a present null document. -/
theorem C7_nil_document_indistinguishable :
    lookupA ((DS.init "data").Set "a" Value.nullV "a").data "a"
        = some Value.nullV ∧
      lookupA ((DS.init "data").Set "a" Value.nullV "a").data "zzz" = none ∧
      ((DS.init "data").Set "a" Value.nullV "a").Get "a"
        = ((DS.init "data").Set "a" Value.nullV "a").Get "zzz" := by
  exact ⟨rfl, rfl, rfl⟩

/-- C7 (amended): outside a transaction `Get` never returns an error; a
present record's document is returned as-is, and a miss returns the nil
interface — a signal distinct from every present record except one whose
stored document is itself nil. -/
theorem C7_get_no_error_miss_nil (ds : DS) (id : String)
    (htx : ds.txActive = false) :
    (ds.Get id).2 = none ∧
      (∀ v, lookupA ds.data id = some v → (ds.Get id).1 = v) ∧
      (lookupA ds.data id = none → (ds.Get id).1 = Value.nullV) := by
  rw [DS.Get, htx]
  simp only [Bool.false_eq_true, if_false]
  cases hl : lookupA ds.data id with
  | none =>
      dsimp only
      refine ⟨rfl, fun v hv => ?_, fun hv => ?_⟩
      · exact nomatch hv
      · rfl
  | some d1 =>
      dsimp only
      refine ⟨rfl, fun v hv => ?_, fun hv => ?_⟩
      · exact Option.some.inj hv
      · exact nomatch hv

/-- C7 witness: the amended theorem at the fresh store and id `x`. -/
theorem C7_get_no_error_miss_nil_witness :
    (((DS.init "data").Get "x").2 = none ∧
      (∀ v, lookupA (DS.init "data").data "x" = some v →
        ((DS.init "data").Get "x").1 = v) ∧
      (lookupA (DS.init "data").data "x" = none →
        ((DS.init "data").Get "x").1 = Value.nullV)) :=
  C7_get_no_error_miss_nil (DS.init "data") "x" rfl

/-- C8: field-path evaluation is total and fails soft — a non-mapping node
with segments left yields absent, a mapping without the segment yields
absent — and an index-free `Query` never returns a record whose value at
the path is absent. -/
theorem C8_nested_lookup_total (ds : DS) (key value id : String)
    (doc d : Value) (m : List (String × Value)) (k : String)
    (ks : List String)
    (htx : ds.txActive = false) (hnd : NodupKeys ds.data)
    (hnoidx : lookupA ds.indexes key = none)
    (hrec : lookupA ds.data id = some doc)
    (hmiss : getNestedValue doc key = none)
    (hnm : d.isSmap = false) (hmk : lookupA m k = none) :
    getNestedGo d (k :: ks) = none ∧
      getNestedGo (Value.smap m) (k :: ks) = none ∧
      lookupA (ds.Query key value) id = none := by
  refine ⟨?_, ?_, ?_⟩
  · cases d with
    | smap m2 => simp [Value.isSmap] at hnm
    | nullV => rfl
    | str s => rfl
    | intV n => rfl
    | boolV b => rfl
    | list xs => rfl
  · simp only [getNestedGo, hmk]
  · have hall : ∀ d0, (id, d0) ∈ ds.data → getNestedValue d0 key = none := by
      intro d0 hm
      have h2 := lookupA_of_mem hnd hm
      rw [hrec] at h2
      injection h2 with h2
      rw [← h2]
      exact hmiss
    rw [DS.Query, hnoidx]
    dsimp only
    rw [queryScanFold_nomatch ds key value htx ds.data [] id hall]
    rfl

/-- C8 witness: a scalar record `a ↦ "x"` is not returned by
`Query dept eng`, and the structural absent cases at concrete inputs. -/
theorem C8_nested_lookup_total_witness :
    getNestedGo (Value.str "x") ("dept" :: []) = none ∧
      getNestedGo (Value.smap [("name", Value.str "Ann")])
        ("dept" :: []) = none ∧
      lookupA (((DS.init "data").Set "a" (Value.str "x") "a").Query
        "dept" "eng") "a" = none :=
  C8_nested_lookup_total ((DS.init "data").Set "a" (Value.str "x") "a")
    "dept" "eng" "a" (Value.str "x") (Value.str "x")
    [("name", Value.str "Ann")] "dept" []
    (by decide) (by decide) (by decide) (by decide) (by decide)
    (by decide) (by decide)

/-- C9: loading the same two shard files that both define id `x` yields a
store whose `x` depends on the goroutine completion order — schedule
`[f1, f2]` leaves `x ↦ 2`, schedule `[f2, f1]` leaves `x ↦ 1` — refuting
the claim that duplicate-id merges are deterministic in a fixed order. -/
theorem C9_load_depends_on_schedule :
    lookupA (ConcurrentRead (DS.init "data")
        [⟨"data/records_a.yaml", [("x", Value.intV 1)]⟩,
         ⟨"data/records_b.yaml", [("x", Value.intV 2)]⟩]
        [⟨"data/records_a.yaml", [("x", Value.intV 1)]⟩,
         ⟨"data/records_b.yaml", [("x", Value.intV 2)]⟩]).data "x"
      = some (Value.intV 2) ∧
    lookupA (ConcurrentRead (DS.init "data")
        [⟨"data/records_a.yaml", [("x", Value.intV 1)]⟩,
         ⟨"data/records_b.yaml", [("x", Value.intV 2)]⟩]
        [⟨"data/records_b.yaml", [("x", Value.intV 2)]⟩,
         ⟨"data/records_a.yaml", [("x", Value.intV 1)]⟩]).data "x"
      = some (Value.intV 1) := by
  exact ⟨rfl, rfl⟩

/-- C10: while a transaction is open, store-level `Set` stages into the
overlay only (committed data, indexes, dirty flag and cache untouched),
store-level `Delete` stages a tombstone and succeeds even for an id absent
everywhere, and `Get` of a staged id returns the staged value. -/
theorem C10_store_ops_redirect_to_overlay (ds : DS) (id id2 : String)
    (d v : Value) (hint : String)
    (htx : ds.txActive = true) (hv : lookupA ds.txData id2 = some v) :
    (ds.Set id d hint).data = ds.data ∧
      (ds.Set id d hint).indexes = ds.indexes ∧
      (ds.Set id d hint).dirty = ds.dirty ∧
      (ds.Set id d hint).cache = ds.cache ∧
      (ds.Set id d hint).txData = insertA ds.txData id d ∧
      ds.Delete id
        = ({ ds with txData := insertA ds.txData id Value.nullV }, none) ∧
      ds.Get id2 = (v, none) := by
  rw [DS.Set, DS.Delete, DS.Get, htx]
  simp [hv]

/-- C10 witness: in a store with one committed record and a transaction
that staged `b 7`, the redirect properties hold at the concrete inputs
`Set c 3`, `Delete c`, `Get b`. -/
theorem C10_store_ops_redirect_to_overlay_witness :
    (overlayState.Set "c" (Value.intV 3) "c").data = overlayState.data ∧
      (overlayState.Set "c" (Value.intV 3) "c").indexes
        = overlayState.indexes ∧
      (overlayState.Set "c" (Value.intV 3) "c").dirty = overlayState.dirty ∧
      (overlayState.Set "c" (Value.intV 3) "c").cache = overlayState.cache ∧
      (overlayState.Set "c" (Value.intV 3) "c").txData
        = insertA overlayState.txData "c" (Value.intV 3) ∧
      overlayState.Delete "c"
        = ({ overlayState with
              txData := insertA overlayState.txData "c" Value.nullV },
            none) ∧
      overlayState.Get "b" = (Value.intV 7, none) :=
  C10_store_ops_redirect_to_overlay overlayState "c" "b" (Value.intV 3)
    (Value.intV 7) "c" (by decide) (by decide)

end YarnDB
